import Mathlib

/-!
Shallow embedding of the `nevez` changelog generator (file `src/nevez.rs` of
`elb-dev-tools-ng`): commit-log parsing, commit classification, message
shortening, section formatting, and changelog-document insertion.

Strings are modelled as Lean `String`; regular expressions are hand-translated
into executable character-list predicates. Rust `\s`, `\w` and `\d` classes are
modelled over their ASCII parts (the inputs under study are ASCII). External
collaborators (the `git` invocations and `chrono` RFC-2822 date parsing) are
modelled as parameters.
-/

namespace Nevez

/-! ### Character classes (ASCII parts of the regex classes) -/

/-- ASCII part of the regex class `\s`. -/
def isWsCh (c : Char) : Bool :=
  c = ' ' || c = '\t' || c = '\n' || c = '\x0b' || c = '\x0c' || c = '\r'

/-- ASCII part of the regex class `\w`. -/
def isWdCh (c : Char) : Bool := c.isAlphanum || c = '_'

/-- Character class `[\w\-.]` of the release-heading pattern. -/
def isTagCh (c : Char) : Bool := isWdCh c || c = '-' || c = '.'

/-! ### Rust line splitting

`str::lines` and `BufRead::lines` split on `\x7b'\n'\x7d`, do not yield a final
empty line when the text ends with a newline, and strip one trailing
carriage return from every line. -/

/-- Split a character list at every occurrence of `sep`; always nonempty. -/
def splitOnChar (sep : Char) : List Char → List (List Char)
  | [] => [[]]
  | c :: cs =>
    let r := splitOnChar sep cs
    if c = sep then [] :: r
    else
      match r with
      | [] => [[c]]
      | h :: t => (c :: h) :: t

/-- Strip one trailing carriage return, as Rust `lines` does per line. -/
def stripCRL (l : List Char) : List Char :=
  if l.getLast? = some '\r' then l.dropLast else l

/-- Rust `lines` on a character list. -/
def rustLinesL (cs : List Char) : List (List Char) :=
  let parts := splitOnChar '\n' cs
  (if parts.getLast? = some [] then parts.dropLast else parts).map stripCRL

/-- Rust `str::lines` / `BufRead::lines` semantics on a `String`. -/
def rustLines (s : String) : List String :=
  (rustLinesL s.toList).map String.mk

/-- Emit a list of lines each followed by a newline, as the inserter's
`write!(writer, "\x7b\x7d\n", line)` loop does. -/
def joinNL : List String → String
  | [] => ""
  | l :: ls => (l ++ "\n") ++ joinNL ls

/-! ### Data model -/

/-- Author of a commit (`struct Author`). -/
structure Author where
  name : String
  email : String
deriving DecidableEq, Repr

/-- A parsed commit (`struct Commit`). The `chrono` timestamp is modelled as
an abstract integer. -/
structure Commit where
  id : String
  author : Author
  date : Int
  message : String
deriving DecidableEq, Repr

/-- First line of the commit message (`Commit::brief`,
`self.message.lines().nth(0)`). -/
def Commit.brief (c : Commit) : Option String :=
  (rustLines c.message).head?

/-! ### Commit log parser (`CommitLogParser`)

The author pattern is `^Author:\s+(.+)<(.+)>$` and the date pattern is
`^Date:\s+(.+)$`, matched with the leftmost-first greedy semantics of the
`regex` crate: the whitespace run is as long as possible, the first group
extends to the last viable `<`, and `.` never matches a newline. -/

/-- Capture split for `(.+)<(.+)>$` applied to the text after the whitespace
run: the text must end in `>`, and the split is at the last `<` that leaves
both groups nonempty and newline-free. -/
def groupSplit (r : List Char) : Option (List Char × List Char) :=
  match r.getLast? with
  | some '>' =>
    let v := r.dropLast
    match (List.range v.length).reverse.find? (fun i =>
        1 ≤ i && v.get? i = some '<' && !(v.drop (i + 1)).isEmpty &&
        (v.take i).all (fun c => c ≠ '\n') &&
        (v.drop (i + 1)).all (fun c => c ≠ '\n')) with
    | some i => some (v.take i, v.drop (i + 1))
    | none => none
  | _ => none

/-- Try whitespace-run lengths `k, k-1, ..., 1` for `\s+(.+)<(.+)>$`,
longest first (greedy `\s+`, backtracking on failure). -/
def authorTryK : Nat → List Char → Option (List Char × List Char)
  | 0, _ => none
  | k + 1, t =>
    match groupSplit (t.drop (k + 1)) with
    | some ab => some ab
    | none => authorTryK k t

/-- Match `^Author:\s+(.+)<(.+)>$`, returning the two captures. -/
def matchAuthor (cs : List Char) : Option (List Char × List Char) :=
  if "Author:".toList.isPrefixOf cs then
    let t := cs.drop 7
    authorTryK (t.takeWhile isWsCh).length t
  else none

/-- Try whitespace-run lengths for `\s+(.+)$`, longest first. -/
def dateTryK : Nat → List Char → Option (List Char)
  | 0, _ => none
  | k + 1, t =>
    let r := t.drop (k + 1)
    if !r.isEmpty && r.all (fun c => c ≠ '\n') then some r else dateTryK k t

/-- Match `^Date:\s+(.+)$`, returning the capture. -/
def matchDate (cs : List Char) : Option (List Char) :=
  if "Date:".toList.isPrefixOf cs then
    let t := cs.drop 5
    dateTryK (t.takeWhile isWsCh).length t
  else none

/-- Rust `str::trim_start` (ASCII whitespace model). -/
def rustTrimStart (s : String) : String :=
  String.mk (s.toList.dropWhile isWsCh)

/-- `CommitLogParser::parse`: id line, author line, date line, one skipped
blank line, then the message body with leading whitespace stripped per line
and rejoined with newlines. `parseDate` stands for
`DateTime::parse_from_rfc2822(..).ok()` of the `chrono` crate. -/
def parseCommit (parseDate : String → Option Int) (text : String) :
    Option Commit :=
  match rustLines text with
  | [] => none
  | idLine :: rest =>
    match rest with
    | [] => none
    | l2 :: rest2 =>
      match matchAuthor l2.toList with
      | none => none
      | some nmem =>
        match rest2 with
        | [] => none
        | l3 :: rest3 =>
          match matchDate l3.toList with
          | none => none
          | some ds =>
            match parseDate (String.mk ds) with
            | none => none
            | some d =>
              some { id := idLine,
                     author := { name := String.mk nmem.1,
                                 email := String.mk nmem.2 },
                     date := d,
                     message := String.intercalate "\n"
                       ((rest3.drop 1).map rustTrimStart) }

/-- The split marker of `collect_commits`: the pattern `(?x)commit ` is in
extended mode, where the literal space is insignificant whitespace, so the
log text is split at every occurrence of the literal `commit`. -/
def commitMarker : String := "commit"

/-- The per-commit blocks of a raw log text: split at the marker and discard
the first segment (`pattern.split(&text).skip(1)`). -/
def commitBlocks (text : String) : List String :=
  (text.splitOn commitMarker).drop 1

/-- `collect_commits` after the external `git log` call: parse every block,
silently skipping the malformed ones (`filter_map`). -/
def collectCommits (parseDate : String → Option Int) (text : String) :
    List Commit :=
  (commitBlocks text).filterMap (parseCommit parseDate)

/-! ### Regex translations for the classifier

Generic building blocks: each combinator decides whether a character list has
a decomposition matching the corresponding regex fragment, the continuation
consuming the remainder. -/

/-- `\s+` followed by the continuation: some nonempty whitespace prefix is
consumed. -/
def wsPlusThen (k : List Char → Bool) (cs : List Char) : Bool :=
  (List.range (cs.length + 1)).any (fun i =>
    1 ≤ i && (cs.take i).all isWsCh && k (cs.drop i))

/-- `.+$`: one or more non-newline characters reaching the end. -/
def dotPlusEnd (cs : List Char) : Bool :=
  !cs.isEmpty && cs.all (fun c => c ≠ '\n')

/-- `.+` followed by the continuation: some nonempty non-newline prefix is
consumed. -/
def dotPlusThen (k : List Char → Bool) (cs : List Char) : Bool :=
  (List.range (cs.length + 1)).any (fun i =>
    1 ≤ i && (cs.take i).all (fun c => c ≠ '\n') && k (cs.drop i))

/-- A literal word followed by the continuation. -/
def litThen (w : List Char) (k : List Char → Bool) (cs : List Char) : Bool :=
  w.isPrefixOf cs && k (cs.drop w.length)

/-- An alternation of literal words followed by the continuation. -/
def altThen (ws : List (List Char)) (k : List Char → Bool)
    (cs : List Char) : Bool :=
  ws.any (fun w => litThen w k cs)

/-- A literal colon followed by the continuation. -/
def colonThen (k : List Char → Bool) : List Char → Bool
  | ':' :: r => k r
  | _ => false

/-- Expansion of the alternation `([Aa]dd(?:ed)?|[Nn]ew)`. -/
def addKws : List (List Char) :=
  ["Add", "Added", "add", "added", "New", "new"].map String.toList

/-- Expansion of `[Ff]ix(?:ed)?`. -/
def fixKws : List (List Char) :=
  ["Fix", "Fixed", "fix", "fixed"].map String.toList

/-- Expansion of `[Bb]ump(?:ed)?`. -/
def bumpKws : List (List Char) :=
  ["Bump", "Bumped", "bump", "bumped"].map String.toList

/-- Expansion of `[Kk]ick off`. -/
def kickKws : List (List Char) :=
  ["Kick off", "kick off"].map String.toList

/-- The tool prefixes `(?:configure|meson|CMakeLists|version)`. -/
def toolKws : List (List Char) :=
  ["configure", "meson", "CMakeLists", "version"].map String.toList

/-- `^([Aa]dd(?:ed)?|[Nn]ew)\s+.+$` -/
def matchAdd1 (cs : List Char) : Bool :=
  altThen addKws (wsPlusThen dotPlusEnd) cs

/-- `^.+:\s+([Aa]dd(?:ed)?|[Nn]ew)\s+.+$` -/
def matchAdd2 (cs : List Char) : Bool :=
  dotPlusThen (colonThen (wsPlusThen (altThen addKws
    (wsPlusThen dotPlusEnd)))) cs

/-- `^[Ff]ix(?:ed)?\s+.+$` -/
def matchFix1 (cs : List Char) : Bool :=
  altThen fixKws (wsPlusThen dotPlusEnd) cs

/-- `^.+\s+[Ff]ix(?:ed)?\s+.+$` -/
def matchFix2 (cs : List Char) : Bool :=
  dotPlusThen (wsPlusThen (altThen fixKws (wsPlusThen dotPlusEnd))) cs

/-- `^[Kk]ick off\s+.+$` -/
def matchBump1 (cs : List Char) : Bool :=
  altThen kickKws (wsPlusThen dotPlusEnd) cs

/-- `^(?:configure|meson|CMakeLists|version):\s+[Kk]ick off\s+.+$` -/
def matchBump2 (cs : List Char) : Bool :=
  altThen toolKws (colonThen (wsPlusThen (altThen kickKws
    (wsPlusThen dotPlusEnd)))) cs

/-- `^[Bb]ump(?:ed)?\s+version.+$` -/
def matchBump3 (cs : List Char) : Bool :=
  altThen bumpKws (wsPlusThen (litThen "version".toList dotPlusEnd)) cs

/-- A single `\s` followed by `.+$`. -/
def wsOneDotPlusEnd : List Char → Bool
  | c :: r => isWsCh c && dotPlusEnd r
  | [] => false

/-- `^(?:configure|meson|CMakeLists|version):\s+[Bb]ump(?:ed)?\s+version\s.+$` -/
def matchBump4 (cs : List Char) : Bool :=
  altThen toolKws (colonThen (wsPlusThen (altThen bumpKws
    (wsPlusThen (litThen "version".toList wsOneDotPlusEnd))))) cs

/-- `^(version|VERSION):\s+[Bb]ump(?:ed)?.+$` -/
def matchBump5 (cs : List Char) : Bool :=
  altThen ["version".toList, "VERSION".toList]
    (colonThen (wsPlusThen (altThen bumpKws dotPlusEnd))) cs

/-! ### Commit classifier (`CommitClassifier`) -/

/-- Kind of commits (`enum CommitKind`). -/
inductive CommitKind where
  | Addition
  | Bump
  | Fix
deriving DecidableEq, Repr

/-- The classifier's three ordered rule families, each a list of pattern
matchers. -/
structure CommitClassifier where
  addPatterns : List (List Char → Bool)
  fixPatterns : List (List Char → Bool)
  bumpPatterns : List (List Char → Bool)

/-- `CommitClassifier::new` with the translated pattern tables. -/
def CommitClassifier.new : CommitClassifier :=
  { addPatterns := [matchAdd1, matchAdd2],
    fixPatterns := [matchFix1, matchFix2],
    bumpPatterns := [matchBump1, matchBump2, matchBump3, matchBump4,
                     matchBump5] }

/-- `CommitClassifier::check_kind`: any pattern of the family matches the
message. -/
def CommitClassifier.checkKind (cl : CommitClassifier) (kind : CommitKind)
    (message : String) : Bool :=
  let patterns := match kind with
    | .Addition => cl.addPatterns
    | .Bump => cl.bumpPatterns
    | .Fix => cl.fixPatterns
  patterns.any (fun p => p message.toList)

/-- Result of classification (`struct ClassifiedCommits`); the borrowed
references of the source are modelled as copies of the commit records. -/
structure ClassifiedCommits where
  additions : List Commit
  changes : List Commit
  fixes : List Commit
deriving DecidableEq, Repr

/-- `c.brief().map_or(false, |m| cl.check_kind(kind, m))`. -/
def briefCheck (cl : CommitClassifier) (kind : CommitKind)
    (c : Commit) : Bool :=
  (c.brief.map (fun m => cl.checkKind kind m)).getD false

/-- `CommitClassifier::classify`: partition on Addition, then on Fix on the
remainder, then drop what matches Bump; the rest become changes. -/
def CommitClassifier.classify (cl : CommitClassifier)
    (commits : List Commit) : ClassifiedCommits :=
  let p1 := commits.partition (briefCheck cl .Addition)
  let additions := p1.1
  let others := p1.2
  let p2 := others.partition (briefCheck cl .Fix)
  let fixes := p2.1
  let others2 := p2.2
  let p3 := others2.partition (briefCheck cl .Bump)
  let changes := p3.2
  { additions := additions, changes := changes, fixes := fixes }

/-! ### Message shortener (`CommitShortener`) -/

/-- `^Bug\s[\d]+:.*` -/
def matchBug1 (cs : List Char) : Bool :=
  litThen "Bug".toList (fun r =>
    match r with
    | c :: r2 =>
      isWsCh c &&
      !(r2.takeWhile Char.isDigit).isEmpty &&
      (match r2.dropWhile Char.isDigit with
       | ':' :: _ => true
       | _ => false)
    | [] => false) cs

/-- `^JIRA:\s[\w]+` -/
def matchBug2 (cs : List Char) : Bool :=
  litThen "JIRA:".toList (fun r =>
    match r with
    | c :: c2 :: _ => isWsCh c && isWdCh c2
    | _ => false) cs

/-- `^CS[\d]+` -/
def matchBug3 (cs : List Char) : Bool :=
  litThen "CS".toList (fun r =>
    match r with
    | c :: _ => Char.isDigit c
    | [] => false) cs

/-- The shortener's bug-reference pattern table. -/
def bugPatterns : List (List Char → Bool) := [matchBug1, matchBug2, matchBug3]

/-- One line matches some bug-reference pattern. -/
def isBugLine (l : String) : Bool := bugPatterns.any (fun p => p l.toList)

/-- `CommitShortener::shorten`: collect the message lines matching a bug
pattern; return the brief, with the matching lines comma-joined in
parentheses appended when any were found. -/
def shorten (c : Commit) : Option String :=
  let bugs := (rustLines c.message).filter isBugLine
  match c.brief with
  | none => none
  | some b =>
    some (if bugs.isEmpty then b
          else b ++ (" (" ++ String.intercalate "," bugs ++ ")"))

/-! ### Section formatter (`Formatter`) -/

/-- `format_md_section`: empty for an empty item list, else a heading of
`level` hash marks, a blank line, one bullet per item, and a closing blank
line. -/
def formatMdSection (level : Nat) (title : String)
    (items : List String) : String :=
  if items.isEmpty then ""
  else
    String.mk (List.replicate level '#') ++ " " ++ title ++ "\n\n" ++
    String.join (items.map (fun item => "- " ++ item ++ "\n")) ++ "\n"

/-- Lexicographic order on character lists, by scalar value; on UTF-8 data
this coincides with Rust's byte-wise `Ord` for `String`. -/
def leL : List Char → List Char → Bool
  | [], _ => true
  | _ :: _, [] => false
  | a :: as, b :: bs =>
    if a < b then true
    else if b < a then false
    else leL as bs

/-- Lexicographic string comparison backing Rust `Vec::<String>::sort`. -/
def strLe (a b : String) : Bool := leL a.toList b.toList

/-- Insert a string into an ascending list, keeping it ascending. -/
def insertSorted (s : String) : List String → List String
  | [] => [s]
  | x :: xs => if strLe s x then s :: x :: xs else x :: insertSorted s xs

/-- Rust `Vec::sort` on strings: an ascending sort in lexicographic order.
Stability is immaterial for strings, where equal elements are identical, so
any correct ascending sort produces the same list. -/
def sortedStrings (l : List String) : List String :=
  l.foldr insertSorted []

/-- `Formatter::shorten`: shorten a bucket, dropping commits that shorten to
nothing, then sort. -/
def shortenBucket (commits : List Commit) : List String :=
  sortedStrings (commits.filterMap shorten)

/-- The release heading line `## [tag] - date`. -/
def headingLine (tag date : String) : String :=
  "## [" ++ tag ++ "] - " ++ date

/-- `Formatter::format`: heading with the generation-time date (modelled by
the `today` parameter standing for `Utc::now().format`), then the three
subsections. -/
def format (commits : ClassifiedCommits) (tag today : String) : String :=
  let additions := shortenBucket commits.additions
  let changes := shortenBucket commits.changes
  let fixes := shortenBucket commits.fixes
  (headingLine tag today ++ "\n") ++
  formatMdSection 3 "Added" additions ++
  formatMdSection 3 "Changed" changes ++
  formatMdSection 3 "Fixed" fixes

/-! ### Document inserter (`update_changelog`)

The heading pattern is `^##\s+\[[\w\-.]+\]\s+-\s+[\d]\x7b4\x7d-[\d]\x7b2\x7d-[\d]\x7b2\x7d$`.
It is deterministic: each `\s+` run and the tag run are maximal, since the
character following each run cannot belong to the run's class. -/

/-- The trailing date part `\d, 4 - \d, 2 - \d, 2` at end of line. -/
def dateCheck : List Char → Bool
  | [a, b, c, d, '-', e, f, '-', g, h] =>
    [a, b, c, d, e, f, g, h].all Char.isDigit
  | _ => false

/-- After `##\s+\[[\w\-.]+\]\s+-\s+`: the date and end of line. -/
def afterDash (r : List Char) : Bool :=
  !(r.takeWhile isWsCh).isEmpty && dateCheck (r.dropWhile isWsCh)

/-- After `##\s+\[[\w\-.]+\]\s+`: the literal dash. -/
def afterWs2 : List Char → Bool
  | '-' :: r => afterDash r
  | _ => false

/-- After `##\s+\[[\w\-.]+\]`: the whitespace run before the dash. -/
def afterClose (r : List Char) : Bool :=
  !(r.takeWhile isWsCh).isEmpty && afterWs2 (r.dropWhile isWsCh)

/-- After `##\s+\[[\w\-.]+`: the closing bracket. -/
def afterTag : List Char → Bool
  | ']' :: r => afterClose r
  | _ => false

/-- After `##\s+\[`: the nonempty tag run. -/
def afterBracket (r : List Char) : Bool :=
  !(r.takeWhile isTagCh).isEmpty && afterTag (r.dropWhile isTagCh)

/-- After `##\s+`: the opening bracket. -/
def afterWs1 : List Char → Bool
  | '[' :: r => afterBracket r
  | _ => false

/-- After `##`: the nonempty whitespace run. -/
def afterHash (cs : List Char) : Bool :=
  !(cs.takeWhile isWsCh).isEmpty && afterWs1 (cs.dropWhile isWsCh)

/-- The release-heading pattern on a character list; each whitespace or tag
run of the regex is maximal, since the character after it cannot extend it,
so matching is this deterministic scan. -/
def patHeadingL : List Char → Bool
  | '#' :: '#' :: rest => afterHash rest
  | _ => false

/-- The release-heading pattern of `update_changelog`. -/
def patHeading (s : String) : Bool := patHeadingL s.toList

/-- The emission loop of `update_changelog` as a pure document transform:
re-emit every line followed by a newline, writing the new section text once,
immediately before the first line matching the heading pattern. -/
def insertFrom (text : String) : Bool → List String → String
  | _, [] => ""
  | inserted, l :: ls =>
    if patHeading l && !inserted then
      text ++ ((l ++ "\n") ++ insertFrom text true ls)
    else (l ++ "\n") ++ insertFrom text inserted ls

/-- The full output of `update_changelog` for a document given as its list
of lines. -/
def insertSection (text : String) (ls : List String) : String :=
  insertFrom text false ls

/-! ### File-system model of `update_changelog`

The fallible operations (`File::open`, `File::create`, per-line read,
`write!`, `rename`) are driven by a failure oracle; index `n` of the oracle
tells whether the n-th fallible operation fails. A failed operation leaves
the file system untouched and aborts the run, mirroring the `?` operator. -/

/-- File-system state: the changelog file, the sibling temporary file (when
it exists), and what has been printed to standard output. -/
structure FSState where
  orig : String
  tmp : Option String
  out : String
deriving DecidableEq, Repr

/-- Append a chunk to the active writer: the temporary file when in place,
standard output otherwise. -/
def wrState (st : FSState) (inPlace : Bool) (s : String) : FSState :=
  if inPlace then { st with tmp := some (st.tmp.getD "" ++ s) }
  else { st with out := st.out ++ s }

/-- The read/write loop of `update_changelog`: for each line, a fallible
line read, then (on the first heading match) a fallible section write, then
a fallible line write. Returns the state and whether the loop completed. -/
def updateLoop (oracle : Nat → Bool) (inPlace : Bool) (text : String) :
    List String → Nat → Bool → FSState → FSState × Bool
  | [], _, _, st => (st, true)
  | l :: ls, n, inserted, st =>
    if oracle n then (st, false)
    else if patHeading l && !inserted then
      if oracle (n + 1) then (st, false)
      else
        let st1 := wrState st inPlace text
        if oracle (n + 2) then (st1, false)
        else updateLoop oracle inPlace text ls (n + 3) true
          (wrState st1 inPlace (l ++ "\n"))
    else
      if oracle (n + 1) then (st, false)
      else updateLoop oracle inPlace text ls (n + 2) inserted
        (wrState st inPlace (l ++ "\n"))

/-- `update_changelog` over the file-system model: open the changelog
(fallible), create the temporary file when in place (fallible), run the
loop, and finally, when in place, rename the temporary file over the
original (fallible). Returns the state and whether the run succeeded. -/
def updateChangelogFS (oracle : Nat → Bool) (inPlace : Bool) (text : String)
    (st : FSState) : FSState × Bool :=
  if oracle 0 then (st, false)
  else if inPlace then
    if oracle 1 then (st, false)
    else
      let st1 : FSState := { st with tmp := some "" }
      let r := updateLoop oracle inPlace text (rustLines st.orig) 2 false st1
      if r.2 then
        if oracle (2 + 3 * (rustLines st.orig).length) then (r.1, false)
        else ({ r.1 with orig := r.1.tmp.getD r.1.orig, tmp := none }, true)
      else (r.1, false)
  else updateLoop oracle inPlace text (rustLines st.orig) 1 false st

/-! ### Reference definitions written from the specification text -/

/-- The brief line matches some pattern of a rule family (specification
wording: a commit with no brief matches nothing). -/
def briefMatchesSome (pats : List (List Char → Bool)) (c : Commit) : Bool :=
  match c.brief with
  | none => false
  | some m => pats.any (fun p => p m.toList)

/-- Reference classification, written from the specification: additions are
the commits whose brief matches some Addition pattern; fixes are the
remaining commits whose brief matches some Fix pattern; of the commits left
after that, those matching some Bump pattern are excluded everywhere; every
other commit becomes a change. -/
def classifyRef (cl : CommitClassifier) (commits : List Commit) :
    ClassifiedCommits :=
  let additions := commits.filter (briefMatchesSome cl.addPatterns)
  let rest1 := commits.filter (fun c => !briefMatchesSome cl.addPatterns c)
  let fixes := rest1.filter (briefMatchesSome cl.fixPatterns)
  let rest2 := rest1.filter (fun c => !briefMatchesSome cl.fixPatterns c)
  let changes := rest2.filter (fun c => !briefMatchesSome cl.bumpPatterns c)
  { additions := additions, changes := changes, fixes := fixes }

/-- A well-behaved document line: no embedded newline and no trailing
carriage return, so that writing it followed by a newline and reading the
file back recovers the line. -/
def lineOk (x : String) : Prop :=
  '\n' ∉ x.toList ∧ x.toList.getLast? ≠ some '\r'

instance (x : String) : Decidable (lineOk x) := by
  unfold lineOk; infer_instance

/-! ## Helper lemmas -/

theorem length_eq_filterMap_add_none {α β : Type _} (f : α → Option β)
    (l : List α) :
    l.length = (l.filterMap f).length +
      (l.filter (fun x => (f x).isNone)).length := by
  induction l with
  | nil => rfl
  | cons x xs ih =>
    cases h : f x <;>
      simp [List.filterMap_cons, List.filter_cons, h, ih] <;> omega

theorem length_filterMap_eq_filter_isSome {α β : Type _} (f : α → Option β)
    (l : List α) :
    (l.filterMap f).length = (l.filter (fun x => (f x).isSome)).length := by
  induction l with
  | nil => rfl
  | cons x xs ih =>
    cases h : f x <;> simp [List.filterMap_cons, List.filter_cons, h, ih]

theorem briefCheck_addition (cl : CommitClassifier) (c : Commit) :
    briefCheck cl .Addition c = briefMatchesSome cl.addPatterns c := by
  unfold briefCheck briefMatchesSome CommitClassifier.checkKind
  cases c.brief <;> rfl

theorem briefCheck_fix (cl : CommitClassifier) (c : Commit) :
    briefCheck cl .Fix c = briefMatchesSome cl.fixPatterns c := by
  unfold briefCheck briefMatchesSome CommitClassifier.checkKind
  cases c.brief <;> rfl

theorem briefCheck_bump (cl : CommitClassifier) (c : Commit) :
    briefCheck cl .Bump c = briefMatchesSome cl.bumpPatterns c := by
  unfold briefCheck briefMatchesSome CommitClassifier.checkKind
  cases c.brief <;> rfl

theorem classify_eq (cl : CommitClassifier) (cs : List Commit) :
    cl.classify cs =
      { additions := cs.filter (briefCheck cl .Addition),
        changes := cs.filter (fun c => !briefCheck cl .Bump c &&
          (!briefCheck cl .Fix c && !briefCheck cl .Addition c)),
        fixes := cs.filter (fun c => briefCheck cl .Fix c &&
          !briefCheck cl .Addition c) } := by
  unfold CommitClassifier.classify
  simp [List.partition_eq_filter_filter, List.filter_filter, Function.comp]

theorem stringMk_toList (s : String) : String.mk s.toList = s := by
  cases s
  rfl

theorem toList_append (a b : String) :
    (a ++ b).toList = a.toList ++ b.toList :=
  String.data_append a b

theorem joinNL_append (a b : List String) :
    joinNL (a ++ b) = joinNL a ++ joinNL b := by
  induction a with
  | nil => simp [joinNL]
  | cons l ls ih => simp [joinNL, ih, String.append_assoc]

theorem insertFrom_already_inserted (text : String) (ls : List String) :
    insertFrom text true ls = joinNL ls := by
  induction ls with
  | nil => rfl
  | cons l ls ih => simp [insertFrom, joinNL, ih]

theorem insertFrom_no_heading (text : String) (b : Bool) (ls : List String)
    (h : ∀ x ∈ ls, patHeading x = false) :
    insertFrom text b ls = joinNL ls := by
  induction ls with
  | nil => rfl
  | cons l ls ih =>
    have hl : patHeading l = false := h l (List.mem_cons_self l ls)
    have ih2 := ih (fun x hx => h x (List.mem_cons_of_mem l hx))
    simp [insertFrom, hl, joinNL, ih2]

theorem insert_first_heading (text : String) (pre post : List String)
    (l : String) (hpre : ∀ x ∈ pre, patHeading x = false)
    (hl : patHeading l = true) :
    insertSection text (pre ++ l :: post) =
      joinNL pre ++ text ++ ((l ++ "\n") ++ joinNL post) := by
  unfold insertSection
  induction pre with
  | nil =>
    simp [insertFrom, hl, insertFrom_already_inserted, joinNL,
      String.append_assoc]
  | cons p ps ih =>
    have hp : patHeading p = false := hpre p (List.mem_cons_self p ps)
    have ih2 := ih (fun x hx => hpre x (List.mem_cons_of_mem p hx))
    simp [insertFrom, hp, joinNL, ih2, String.append_assoc]

theorem splitOnChar_sep_free (sep : Char) (a : List Char)
    (ha : ∀ c ∈ a, c ≠ sep) : splitOnChar sep a = [a] := by
  induction a with
  | nil => rfl
  | cons c cs ih =>
    have hc : c ≠ sep := ha c (List.mem_cons_self c cs)
    have ih2 := ih (fun x hx => ha x (List.mem_cons_of_mem c hx))
    simp [splitOnChar, hc, ih2]

theorem splitOnChar_append_sep (sep : Char) (a b : List Char)
    (ha : ∀ c ∈ a, c ≠ sep) :
    splitOnChar sep (a ++ sep :: b) = a :: splitOnChar sep b := by
  induction a with
  | nil => simp [splitOnChar]
  | cons c cs ih =>
    have hc : c ≠ sep := ha c (List.mem_cons_self c cs)
    have ih2 := ih (fun x hx => ha x (List.mem_cons_of_mem c hx))
    simp [splitOnChar, hc, ih2]

theorem toList_joinNL_cons (l : String) (ls : List String) :
    (joinNL (l :: ls)).toList = l.toList ++ '\n' :: (joinNL ls).toList := by
  show ((l ++ "\n") ++ joinNL ls).toList = _
  rw [toList_append, toList_append]
  show l.toList ++ ['\n'] ++ _ = _
  simp

theorem splitOnChar_joinNL (ls : List String)
    (h : ∀ x ∈ ls, '\n' ∉ x.toList) :
    splitOnChar '\n' (joinNL ls).toList = ls.map String.toList ++ [[]] := by
  induction ls with
  | nil => rfl
  | cons l ls ih =>
    have hl : ∀ c ∈ l.toList, c ≠ '\n' := by
      intro c hc he
      exact (h l (List.mem_cons_self l ls)) (he ▸ hc)
    have ih2 := ih (fun x hx => h x (List.mem_cons_of_mem l hx))
    rw [toList_joinNL_cons, splitOnChar_append_sep _ _ _ hl, ih2]
    rfl

theorem stripCRL_of_no_cr (l : List Char) (h : l.getLast? ≠ some '\r') :
    stripCRL l = l := by
  simp [stripCRL, h]

theorem rustLines_joinNL (ls : List String) (h : ∀ x ∈ ls, lineOk x) :
    rustLines (joinNL ls) = ls := by
  unfold rustLines rustLinesL
  rw [splitOnChar_joinNL ls (fun x hx => (h x hx).1)]
  simp only [List.getLast?_concat, List.dropLast_concat, reduceIte,
    List.map_map]
  have e1 : List.map (String.mk ∘ stripCRL ∘ String.toList) ls =
      List.map id ls :=
    List.map_congr_left (fun x hx => by
      simp only [Function.comp_apply, id_eq]
      rw [stripCRL_of_no_cr _ (h x hx).2, stringMk_toList])
  rw [e1, List.map_id]

theorem takeWhile_append_stop (p : Char → Bool) (a : List Char) (c : Char)
    (b : List Char) (ha : ∀ x ∈ a, p x = true) (hc : p c = false) :
    (a ++ c :: b).takeWhile p = a := by
  induction a with
  | nil => simp [List.takeWhile_cons, hc]
  | cons x xs ih =>
    have hx : p x = true := ha x (List.mem_cons_self x xs)
    have ih2 := ih (fun y hy => ha y (List.mem_cons_of_mem x hy))
    simp [List.takeWhile_cons, hx, ih2]

theorem dropWhile_append_stop (p : Char → Bool) (a : List Char) (c : Char)
    (b : List Char) (ha : ∀ x ∈ a, p x = true) (hc : p c = false) :
    (a ++ c :: b).dropWhile p = c :: b := by
  induction a with
  | nil => simp [List.dropWhile_cons, hc]
  | cons x xs ih =>
    have hx : p x = true := ha x (List.mem_cons_self x xs)
    have ih2 := ih (fun y hy => ha y (List.mem_cons_of_mem x hy))
    simp [List.dropWhile_cons, hx, ih2]

theorem isWsCh_eq_false_of_isDigit (a : Char) (h : a.isDigit = true) :
    isWsCh a = false := by
  cases hw : isWsCh a with
  | false => rfl
  | true =>
    exfalso
    simp only [isWsCh, Bool.or_eq_true, decide_eq_true_eq] at hw
    rcases hw with ((((h1 | h1) | h1) | h1) | h1) | h1 <;>
      (subst h1; exact absurd h (by decide))

theorem dateCheck_head_digit (L : List Char) (h : dateCheck L = true) :
    ∃ a t, L = a :: t ∧ a.isDigit = true := by
  unfold dateCheck at h
  split at h
  next a b c d e f g h8 =>
    refine ⟨a, _, rfl, ?_⟩
    simp only [List.all_cons, Bool.and_eq_true] at h
    exact h.1
  next => exact absurd h (by simp)

theorem leL_total (a : List Char) : ∀ b, leL a b = true ∨ leL b a = true := by
  induction a with
  | nil => intro b; left; rfl
  | cons x xs ih =>
    intro b
    cases b with
    | nil => right; rfl
    | cons y ys =>
      by_cases h1 : x < y
      · left; simp [leL, h1]
      · by_cases h2 : y < x
        · right; simp [leL, h2]
        · rcases ih ys with h | h
          · left; simp [leL, h1, h2, h]
          · right; simp [leL, h1, h2, h]

theorem leL_trans (a : List Char) :
    ∀ b c, leL a b = true → leL b c = true → leL a c = true := by
  induction a with
  | nil => intro b c _ _; rfl
  | cons x xs ih =>
    intro b c h1 h2
    cases b with
    | nil => simp [leL] at h1
    | cons y ys =>
      cases c with
      | nil => simp [leL] at h2
      | cons z zs =>
        by_cases hxy : x < y
        · by_cases hyz : y < z
          · simp [leL, lt_trans hxy hyz]
          · by_cases hzy : z < y
            · simp [leL, hyz, hzy] at h2
            · have hyz2 : y = z :=
                le_antisymm (le_of_not_lt hzy) (le_of_not_lt hyz)
              simp [leL, hyz2 ▸ hxy]
        · by_cases hyx : y < x
          · simp [leL, hxy, hyx] at h1
          · have hxy2 : x = y :=
              le_antisymm (le_of_not_lt hyx) (le_of_not_lt hxy)
            subst hxy2
            by_cases hyz : x < z
            · simp [leL, hyz]
            · by_cases hzy : z < x
              · simp [leL, hyz, hzy] at h2
              · simp only [leL, if_neg hxy, if_neg hyx] at h1
                simp only [leL, if_neg hyz, if_neg hzy] at h2 ⊢
                exact ih ys zs h1 h2

theorem leL_antisymm (a : List Char) :
    ∀ b, leL a b = true → leL b a = true → a = b := by
  induction a with
  | nil =>
    intro b _ h2
    cases b with
    | nil => rfl
    | cons y ys => simp [leL] at h2
  | cons x xs ih =>
    intro b h1 h2
    cases b with
    | nil => simp [leL] at h1
    | cons y ys =>
      by_cases hxy : x < y
      · simp [leL, lt_asymm hxy, hxy] at h2
      · by_cases hyx : y < x
        · simp [leL, hxy, hyx] at h1
        · have hxy2 : x = y :=
            le_antisymm (le_of_not_lt hyx) (le_of_not_lt hxy)
          subst hxy2
          simp only [leL, if_neg hxy, if_neg hyx] at h1 h2
          rw [ih ys h1 h2]

theorem strLe_trans (a b c : String) (h1 : strLe a b = true)
    (h2 : strLe b c = true) : strLe a c = true :=
  leL_trans a.toList b.toList c.toList h1 h2

theorem strLe_total (a b : String) : strLe a b = true ∨ strLe b a = true :=
  leL_total a.toList b.toList

theorem strLe_antisymm (a b : String) (h1 : strLe a b = true)
    (h2 : strLe b a = true) : a = b := by
  have h := leL_antisymm a.toList b.toList h1 h2
  rw [← stringMk_toList a, ← stringMk_toList b, h]

theorem insertSorted_perm (s : String) (l : List String) :
    (insertSorted s l).Perm (s :: l) := by
  induction l with
  | nil => exact List.Perm.refl _
  | cons x xs ih =>
    by_cases hs : strLe s x = true
    · simp only [insertSorted, if_pos hs]
      exact List.Perm.refl _
    · simp only [insertSorted, if_neg hs]
      exact (ih.cons x).trans (List.Perm.swap s x xs)

theorem insertSorted_sorted (s : String) (l : List String)
    (h : l.Sorted (fun a b => strLe a b = true)) :
    (insertSorted s l).Sorted (fun a b => strLe a b = true) := by
  induction l with
  | nil => exact List.sorted_singleton s
  | cons x xs ih =>
    rw [List.sorted_cons] at h
    obtain ⟨hx, hxs⟩ := h
    by_cases hs : strLe s x = true
    · simp only [insertSorted, if_pos hs]
      rw [List.sorted_cons]
      refine ⟨?_, ?_⟩
      · intro b hb
        rcases List.mem_cons.1 hb with rfl | hb2
        · exact hs
        · exact strLe_trans _ _ _ hs (hx b hb2)
      · rw [List.sorted_cons]
        exact ⟨hx, hxs⟩
    · simp only [insertSorted, if_neg hs]
      rw [List.sorted_cons]
      refine ⟨?_, ih hxs⟩
      intro b hb
      have hb3 := (insertSorted_perm s xs).mem_iff.1 hb
      rcases List.mem_cons.1 hb3 with rfl | hb2
      · rcases strLe_total b x with h | h
        · exact absurd h hs
        · exact h
      · exact hx b hb2

theorem sortedStrings_sorted (l : List String) :
    (sortedStrings l).Sorted (fun a b => strLe a b = true) := by
  induction l with
  | nil => exact List.sorted_nil
  | cons x xs ih => exact insertSorted_sorted x _ ih

theorem sortedStrings_perm (l : List String) : (sortedStrings l).Perm l := by
  induction l with
  | nil => exact List.Perm.refl _
  | cons x xs ih =>
    exact (insertSorted_perm x (sortedStrings xs)).trans (ih.cons x)

theorem sortedStrings_eq_of_perm (l1 l2 : List String) (h : l1.Perm l2) :
    sortedStrings l1 = sortedStrings l2 :=
  @List.eq_of_perm_of_sorted String (fun a b => strLe a b = true)
    ⟨fun a b h1 h2 => strLe_antisymm a b h1 h2⟩ _ _
    ((sortedStrings_perm l1).trans (h.trans (sortedStrings_perm l2).symm))
    (sortedStrings_sorted l1) (sortedStrings_sorted l2)

theorem shortenBucket_eq_of_perm (cs1 cs2 : List Commit)
    (h : cs1.Perm cs2) : shortenBucket cs1 = shortenBucket cs2 :=
  sortedStrings_eq_of_perm _ _ (List.Perm.filterMap shorten h)

theorem wrState_orig (st : FSState) (ip : Bool) (s : String) :
    (wrState st ip s).orig = st.orig := by
  cases ip <;> simp [wrState]

theorem wrState_tmp (st : FSState) (s acc : String) (h : st.tmp = some acc) :
    (wrState st true s).tmp = some (acc ++ s) := by
  simp [wrState, h]

theorem updateLoop_orig (oracle : Nat → Bool) (ip : Bool) (text : String) :
    ∀ (ls : List String) (n : Nat) (ins : Bool) (st : FSState),
    ((updateLoop oracle ip text ls n ins st).1).orig = st.orig := by
  intro ls
  induction ls with
  | nil => intro n ins st; rfl
  | cons l ls ih =>
    intro n ins st
    unfold updateLoop
    split
    · rfl
    · split
      · split
        · rfl
        · split
          · simp [wrState_orig]
          · rw [ih]; simp [wrState_orig]
      · split
        · rfl
        · rw [ih]; simp [wrState_orig]

theorem updateLoop_tmp_complete (oracle : Nat → Bool) (text : String) :
    ∀ (ls : List String) (n : Nat) (ins : Bool) (st : FSState)
      (acc : String), st.tmp = some acc →
    (updateLoop oracle true text ls n ins st).2 = true →
    ((updateLoop oracle true text ls n ins st).1).tmp =
      some (acc ++ insertFrom text ins ls) := by
  intro ls
  induction ls with
  | nil =>
    intro n ins st acc h hc
    simp [updateLoop, insertFrom, h]
  | cons l ls ih =>
    intro n ins st acc h hc
    by_cases h0 : oracle n = true
    · simp [updateLoop, h0] at hc
    · replace h0 : oracle n = false := by revert h0; cases oracle n <;> simp
      by_cases hp : (patHeading l && !ins) = true
      · by_cases h1 : oracle (n + 1) = true
        · simp [updateLoop, h0, hp, h1] at hc
        · replace h1 : oracle (n + 1) = false := by
            revert h1; cases oracle (n + 1) <;> simp
          by_cases h2 : oracle (n + 2) = true
          · simp [updateLoop, h0, hp, h1, h2] at hc
          · replace h2 : oracle (n + 2) = false := by
              revert h2; cases oracle (n + 2) <;> simp
            have step1 : (wrState st true text).tmp = some (acc ++ text) :=
              wrState_tmp st text acc h
            have step2 : (wrState (wrState st true text) true
                (l ++ "\n")).tmp = some ((acc ++ text) ++ (l ++ "\n")) :=
              wrState_tmp _ _ _ step1
            have hc2 : (updateLoop oracle true text ls (n + 3) true
                (wrState (wrState st true text) true (l ++ "\n"))).2
                  = true := by
              simpa [updateLoop, h0, hp, h1, h2] using hc
            have hrec := ih (n + 3) true _ _ step2 hc2
            simp only [updateLoop, h0, hp, h1, h2, Bool.false_eq_true,
              if_false, if_true, insertFrom]
            rw [hrec]
            simp [String.append_assoc]
      · replace hp : (patHeading l && !ins) = false := by
          revert hp; cases (patHeading l && !ins) <;> simp
        by_cases h1 : oracle (n + 1) = true
        · simp [updateLoop, h0, hp, h1] at hc
        · replace h1 : oracle (n + 1) = false := by
            revert h1; cases oracle (n + 1) <;> simp
          have step1 : (wrState st true (l ++ "\n")).tmp =
              some (acc ++ (l ++ "\n")) := wrState_tmp st _ acc h
          have hc2 : (updateLoop oracle true text ls (n + 2) ins
              (wrState st true (l ++ "\n"))).2 = true := by
            simpa [updateLoop, h0, hp, h1] using hc
          have hrec := ih (n + 2) ins _ _ step1 hc2
          simp only [updateLoop, h0, hp, h1, Bool.false_eq_true,
            if_false, if_true, insertFrom]
          rw [hrec]
          simp [String.append_assoc]

theorem patHeading_headingLine (tag today : String)
    (h1 : tag.toList ≠ []) (h2 : ∀ ch ∈ tag.toList, isTagCh ch = true)
    (h3 : dateCheck today.toList = true) :
    patHeading (headingLine tag today) = true := by
  obtain ⟨a, t, hts, ha⟩ := dateCheck_head_digit today.toList h3
  have hwa : isWsCh a = false := isWsCh_eq_false_of_isDigit a ha
  have hlist : (headingLine tag today).toList =
      '#' :: '#' :: ' ' :: '[' ::
        (tag.toList ++ ']' :: ' ' :: '-' :: ' ' :: today.toList) := by
    unfold headingLine
    rw [toList_append, toList_append, toList_append]
    show ['#', '#', ' ', '['] ++ tag.toList ++ [']', ' ', '-', ' '] ++
      today.toList = _
    simp
  have w1 : isWsCh ' ' = true := by decide
  have w2 : isWsCh '[' = false := by decide
  have w3 : isTagCh ']' = false := by decide
  have w4 : isWsCh '-' = false := by decide
  have e2 := takeWhile_append_stop isTagCh tag.toList ']'
    (' ' :: '-' :: ' ' :: today.toList) h2 w3
  have e3 := dropWhile_append_stop isTagCh tag.toList ']'
    (' ' :: '-' :: ' ' :: today.toList) h2 w3
  have e4 : List.dropWhile isWsCh today.toList = today.toList := by
    rw [hts, List.dropWhile_cons, hwa]
    simp
  have hne : tag.toList.isEmpty = false := by
    cases htl : tag.toList.isEmpty
    · rfl
    · exact absurd (List.isEmpty_iff.1 htl) h1
  unfold patHeading
  rw [hlist]
  show afterHash (' ' :: '[' ::
    (tag.toList ++ ']' :: ' ' :: '-' :: ' ' :: today.toList)) = true
  unfold afterHash
  rw [List.takeWhile_cons, List.dropWhile_cons, w1, List.takeWhile_cons,
    List.dropWhile_cons, w2]
  simp only [if_true, if_false, reduceIte]
  show afterBracket (tag.toList ++ ']' :: ' ' :: '-' :: ' ' ::
    today.toList) = true
  unfold afterBracket
  rw [e2, e3, hne]
  show afterClose (' ' :: '-' :: ' ' :: today.toList) = true
  unfold afterClose
  rw [List.takeWhile_cons, List.dropWhile_cons, w1, List.takeWhile_cons,
    List.dropWhile_cons, w4]
  simp only [if_true, if_false, reduceIte]
  show afterDash (' ' :: today.toList) = true
  unfold afterDash
  rw [List.takeWhile_cons, List.dropWhile_cons, w1]
  simp only [if_true, reduceIte]
  rw [e4]
  show dateCheck today.toList = true
  exact h3

/-! ## Claim theorems -/

/-- Claim C1: for every document with at least one line matching the
release-heading pattern (decomposed as the heading-free part `pre`, the
first matching line `l`, and the remainder `post`), the inserter's output is
the original lines re-emitted unchanged and in order, with the new section's
full text written exactly once, immediately before the first matching
heading line. -/
theorem inserter_inserts_before_first_heading (text : String)
    (pre post : List String) (l : String)
    (hpre : ∀ x ∈ pre, patHeading x = false) (hl : patHeading l = true) :
    insertSection text (pre ++ l :: post) =
      joinNL pre ++ text ++ ((l ++ "\n") ++ joinNL post) :=
  insert_first_heading text pre post l hpre hl

/-- Witness for C1 on the specification's own example shape: one prior
heading, a new section above it, the old body re-emitted byte-identically. -/
theorem inserter_inserts_before_first_heading_witness :
    (∀ x ∈ ["# Changelog", ""], patHeading x = false) ∧
    patHeading "## [1.3.0] - 2023-01-01" = true ∧
    insertSection "## [1.4.0] - 2024-05-05\n### Added\n\n- New\n\n"
        (["# Changelog", ""] ++ "## [1.3.0] - 2023-01-01" :: ["- old"]) =
      joinNL ["# Changelog", ""] ++
        "## [1.4.0] - 2024-05-05\n### Added\n\n- New\n\n" ++
        (("## [1.3.0] - 2023-01-01" ++ "\n") ++ joinNL ["- old"]) :=
  ⟨by decide, by decide,
    inserter_inserts_before_first_heading
      "## [1.4.0] - 2024-05-05\n### Added\n\n- New\n\n"
      ["# Changelog", ""] ["- old"] "## [1.3.0] - 2023-01-01"
      (by decide) (by decide)⟩

/-- Claim C2: the classifier's output coincides with the reference
classification written from the specification: additions are the commits
whose brief matches some Addition pattern, fixes are the remaining commits
whose brief matches some Fix pattern, commits matching some Bump pattern
after that are in no bucket, and everything else is a change. -/
theorem classifier_matches_reference (cs : List Commit) :
    CommitClassifier.new.classify cs = classifyRef CommitClassifier.new cs := by
  rw [classify_eq]
  unfold classifyRef
  simp only [List.filter_filter, ClassifiedCommits.mk.injEq]
  refine ⟨?_, ?_, ?_⟩
  · exact List.filter_congr (fun c _ => briefCheck_addition _ c)
  · exact List.filter_congr (fun c _ => by
      rw [briefCheck_addition, briefCheck_fix, briefCheck_bump])
  · exact List.filter_congr (fun c _ => by
      rw [briefCheck_addition, briefCheck_fix])

/-- Claim C3: classification is a partition: a commit appearing in one of
the three output sequences comes from the input and appears in neither of
the other two. -/
theorem classify_is_partition (cs : List Commit) (c : Commit) :
    (c ∈ (CommitClassifier.new.classify cs).additions →
       c ∈ cs ∧ c ∉ (CommitClassifier.new.classify cs).changes ∧
       c ∉ (CommitClassifier.new.classify cs).fixes) ∧
    (c ∈ (CommitClassifier.new.classify cs).changes →
       c ∈ cs ∧ c ∉ (CommitClassifier.new.classify cs).additions ∧
       c ∉ (CommitClassifier.new.classify cs).fixes) ∧
    (c ∈ (CommitClassifier.new.classify cs).fixes →
       c ∈ cs ∧ c ∉ (CommitClassifier.new.classify cs).additions ∧
       c ∉ (CommitClassifier.new.classify cs).changes) := by
  rw [classify_eq]
  simp only [List.mem_filter, Bool.and_eq_true, Bool.not_eq_true']
  refine ⟨?_, ?_, ?_⟩
  · rintro ⟨hm, hA⟩
    exact ⟨hm, fun h => by simp [hA] at h, fun h => by simp [hA] at h⟩
  · rintro ⟨hm, hB, hF, hA⟩
    exact ⟨hm, fun h => by simp [hA] at h, fun h => by simp [hF] at h⟩
  · rintro ⟨hm, hF, hA⟩
    exact ⟨hm, fun h => by simp [hA] at h, fun h => by simp [hF] at h⟩

/-- Witness for C3: a concrete addition commit is in the additions bucket,
comes from the input, and is absent from the other two buckets. -/
theorem classify_is_partition_witness :
    (⟨"1", ⟨"a", "b"⟩, 0, "Added X"⟩ : Commit) ∈
      (CommitClassifier.new.classify
        [⟨"1", ⟨"a", "b"⟩, 0, "Added X"⟩]).additions ∧
    ((⟨"1", ⟨"a", "b"⟩, 0, "Added X"⟩ : Commit) ∈
        [(⟨"1", ⟨"a", "b"⟩, 0, "Added X"⟩ : Commit)] ∧
      (⟨"1", ⟨"a", "b"⟩, 0, "Added X"⟩ : Commit) ∉
        (CommitClassifier.new.classify
          [⟨"1", ⟨"a", "b"⟩, 0, "Added X"⟩]).changes ∧
      (⟨"1", ⟨"a", "b"⟩, 0, "Added X"⟩ : Commit) ∉
        (CommitClassifier.new.classify
          [⟨"1", ⟨"a", "b"⟩, 0, "Added X"⟩]).fixes) :=
  ⟨by decide,
    (classify_is_partition [⟨"1", ⟨"a", "b"⟩, 0, "Added X"⟩]
      ⟨"1", ⟨"a", "b"⟩, 0, "Added X"⟩).1 (by decide)⟩

/-- Claim C4: splitting the raw log on the commit marker and discarding the
first segment yields the blocks; their number equals the number of parsed
commits plus the number of malformed blocks that were skipped, and every
well-formed block yields exactly one commit. Parsing is total: it never
fails with an error, whatever the date parser and the log text. -/
theorem parser_block_count (parseDate : String → Option Int)
    (text : String) :
    (commitBlocks text).length =
      (collectCommits parseDate text).length +
      ((commitBlocks text).filter
        (fun b => (parseCommit parseDate b).isNone)).length ∧
    (collectCommits parseDate text).length =
      ((commitBlocks text).filter
        (fun b => (parseCommit parseDate b).isSome)).length :=
  ⟨length_eq_filterMap_add_none _ _, length_filterMap_eq_filter_isSome _ _⟩

/-- Claim C5: the shortener returns nothing exactly when the commit has no
brief line; otherwise it returns the brief, extended, exactly when some
message line matches one of the three bug-reference patterns, by the
parenthesized comma-joined list of all matching lines in message order. -/
theorem shortener_contract (c : Commit) :
    (shorten c = none ↔ c.brief = none) ∧
    (∀ b : String, c.brief = some b →
      shorten c = some (
        if (rustLines c.message).filter (fun l =>
              matchBug1 l.toList || matchBug2 l.toList || matchBug3 l.toList)
            = [] then b
        else b ++ (" (" ++ String.intercalate ","
          ((rustLines c.message).filter (fun l =>
              matchBug1 l.toList || matchBug2 l.toList ||
              matchBug3 l.toList)) ++ ")"))) := by
  have hfil : (rustLines c.message).filter isBugLine =
      (rustLines c.message).filter (fun l =>
        matchBug1 l.toList || matchBug2 l.toList || matchBug3 l.toList) :=
    List.filter_congr (fun x _ => by
      cases h1 : matchBug1 x.data <;> cases h2 : matchBug2 x.data <;>
        cases h3 : matchBug3 x.data <;>
        simp [isBugLine, bugPatterns, String.toList, h1, h2, h3])
  constructor
  · unfold shorten
    cases hb : c.brief <;> simp [hb]
  · intro b hb
    unfold shorten
    rw [hb, ← hfil]
    rcases he : (rustLines c.message).filter isBugLine with _ | ⟨x, xs⟩ <;>
      simp [he]

/-- Witness for C5: a commit with a brief and one bug-reference line in the
body. -/
theorem shortener_contract_witness :
    (⟨"1", ⟨"a", "b"⟩, 0, "Fix crash\n\nBug 42: boom"⟩ : Commit).brief =
      some "Fix crash" ∧
    shorten ⟨"1", ⟨"a", "b"⟩, 0, "Fix crash\n\nBug 42: boom"⟩ = some (
      if (rustLines "Fix crash\n\nBug 42: boom").filter (fun l =>
            matchBug1 l.toList || matchBug2 l.toList || matchBug3 l.toList)
          = [] then "Fix crash"
      else "Fix crash" ++ (" (" ++ String.intercalate ","
        ((rustLines "Fix crash\n\nBug 42: boom").filter (fun l =>
            matchBug1 l.toList || matchBug2 l.toList ||
            matchBug3 l.toList)) ++ ")")) :=
  ⟨by decide,
    (shortener_contract ⟨"1", ⟨"a", "b"⟩, 0, "Fix crash\n\nBug 42: boom"⟩).2
      "Fix crash" (by decide)⟩

/-- Claim C8, counterexample: on a document with no release-heading line the
inserter does not append the new section; the output is the bare original
lines, not the original followed by the section. -/
theorem no_heading_append_counterexample :
    insertSection "## [9.9.9] - 2099-01-01\nNEW\n" ["hello"] = "hello\n" ∧
    insertSection "## [9.9.9] - 2099-01-01\nNEW\n" ["hello"] ≠
      "hello\n" ++ "## [9.9.9] - 2099-01-01\nNEW\n" := by
  constructor <;> decide

/-- Claim C8, amended: when no line of the document matches the
release-heading pattern, the inserter re-emits the original lines unchanged
and the new section is never written. -/
theorem no_heading_passthrough (text : String) (ls : List String)
    (h : ∀ x ∈ ls, patHeading x = false) :
    insertSection text ls = joinNL ls :=
  insertFrom_no_heading text false ls h

/-- Witness for the amended C8. -/
theorem no_heading_passthrough_witness :
    (∀ x ∈ ["# Changelog", "", "hello"], patHeading x = false) ∧
    insertSection "## [9.9.9] - 2099-01-01\nNEW\n"
        ["# Changelog", "", "hello"] =
      joinNL ["# Changelog", "", "hello"] :=
  ⟨by decide,
    no_heading_passthrough "## [9.9.9] - 2099-01-01\nNEW\n"
      ["# Changelog", "", "hello"] (by decide)⟩

/-- Claim C9: shortening is idempotent in the absence of new references:
if a commit shortens to a line that matches none of the bug-reference
patterns, then a commit whose sole message line is that line shortens to
exactly the same text. -/
theorem shorten_idempotent (c c2 : Commit) (s : String)
    (_h1 : shorten c = some s) (h2 : isBugLine s = false)
    (h3 : rustLines c2.message = [s]) :
    shorten c2 = some s := by
  unfold shorten Commit.brief
  rw [h3]
  simp [List.filter_cons, h2]

/-- Witness for C9: shorten a commit, feed the result back as the sole
message line of a fresh commit, and obtain the same text. -/
theorem shorten_idempotent_witness :
    shorten ⟨"1", ⟨"a", "b"⟩, 0, "Refactor internals\n\ndetails"⟩ =
      some "Refactor internals" ∧
    isBugLine "Refactor internals" = false ∧
    rustLines ("Refactor internals" ++ "\n") = ["Refactor internals"] ∧
    shorten ⟨"2", ⟨"a", "b"⟩, 0, "Refactor internals" ++ "\n"⟩ =
      some "Refactor internals" :=
  ⟨by decide, by decide, by decide,
    shorten_idempotent ⟨"1", ⟨"a", "b"⟩, 0, "Refactor internals\n\ndetails"⟩
      ⟨"2", ⟨"a", "b"⟩, 0, "Refactor internals" ++ "\n"⟩
      "Refactor internals" (by decide) (by decide) (by decide)⟩

/-- Claim C7: bucket rendering is sorted ascending (with the
specification's concrete example), and formatting the classification of a
permuted commit list yields the same section text, for any tag and date. -/
theorem formatter_sorted_and_order_invariant :
    formatMdSection 3 "Added" (sortedStrings ["Added Y", "Added X"]) =
      "### Added\n\n- Added X\n- Added Y\n\n" ∧
    (∀ cs : List Commit,
      (shortenBucket cs).Sorted (fun a b => strLe a b = true)) ∧
    (∀ cs1 cs2 : List Commit, cs1.Perm cs2 → ∀ tag today : String,
      format (CommitClassifier.new.classify cs1) tag today =
      format (CommitClassifier.new.classify cs2) tag today) := by
  refine ⟨by decide, fun cs => sortedStrings_sorted _, ?_⟩
  intro cs1 cs2 hp tag today
  have hPa : (CommitClassifier.new.classify cs1).additions.Perm
      (CommitClassifier.new.classify cs2).additions := by
    rw [classify_eq, classify_eq]
    exact List.Perm.filter _ hp
  have hPc : (CommitClassifier.new.classify cs1).changes.Perm
      (CommitClassifier.new.classify cs2).changes := by
    rw [classify_eq, classify_eq]
    exact List.Perm.filter _ hp
  have hPf : (CommitClassifier.new.classify cs1).fixes.Perm
      (CommitClassifier.new.classify cs2).fixes := by
    rw [classify_eq, classify_eq]
    exact List.Perm.filter _ hp
  have hA := shortenBucket_eq_of_perm _ _ hPa
  have hC := shortenBucket_eq_of_perm _ _ hPc
  have hF := shortenBucket_eq_of_perm _ _ hPf
  unfold format
  rw [hA, hC, hF]

/-- Witness for C7: two concrete commits, swapped. -/
theorem formatter_sorted_and_order_invariant_witness :
    ([⟨"1", ⟨"a", "b"⟩, 0, "Added X"⟩, ⟨"2", ⟨"a", "b"⟩, 0, "Fixed Y"⟩] :
        List Commit).Perm
      [⟨"2", ⟨"a", "b"⟩, 0, "Fixed Y"⟩, ⟨"1", ⟨"a", "b"⟩, 0, "Added X"⟩] ∧
    format (CommitClassifier.new.classify
        [⟨"1", ⟨"a", "b"⟩, 0, "Added X"⟩, ⟨"2", ⟨"a", "b"⟩, 0, "Fixed Y"⟩])
        "1.4.0" "2024-05-05" =
      format (CommitClassifier.new.classify
        [⟨"2", ⟨"a", "b"⟩, 0, "Fixed Y"⟩, ⟨"1", ⟨"a", "b"⟩, 0, "Added X"⟩])
        "1.4.0" "2024-05-05" :=
  ⟨List.Perm.swap _ _ _,
    formatter_sorted_and_order_invariant.2.2 _ _ (List.Perm.swap _ _ _)
      "1.4.0" "2024-05-05"⟩

/-- Claim C6: over the file-system model with an arbitrary failure oracle,
whenever the run fails the original changelog is untouched; when the
in-place flag is unset the original is never modified; and a successful
in-place run replaces the original with exactly the fully written insertion
output, the temporary file having received all writes before the rename. -/
theorem update_changelog_atomic (oracle : Nat → Bool) (inPlace : Bool)
    (text : String) (st : FSState) :
    ((updateChangelogFS oracle inPlace text st).2 = false →
      (updateChangelogFS oracle inPlace text st).1.orig = st.orig) ∧
    (inPlace = false →
      (updateChangelogFS oracle inPlace text st).1.orig = st.orig) ∧
    (inPlace = true → (updateChangelogFS oracle inPlace text st).2 = true →
      (updateChangelogFS oracle inPlace text st).1.orig =
        insertSection text (rustLines st.orig)) := by
  cases h0 : oracle 0 with
  | true => simp [updateChangelogFS, h0]
  | false =>
    cases inPlace with
    | false =>
      refine ⟨?_, ?_, ?_⟩
      · intro _
        simp [updateChangelogFS, h0, updateLoop_orig]
      · intro _
        simp [updateChangelogFS, h0, updateLoop_orig]
      · intro h
        exact absurd h (by simp)
    | true =>
      cases h1 : oracle 1 with
      | true => simp [updateChangelogFS, h0, h1]
      | false =>
        have horig := updateLoop_orig oracle true text (rustLines st.orig)
          2 false { st with tmp := some "" }
        cases h2 : (updateLoop oracle true text (rustLines st.orig) 2 false
            { st with tmp := some "" }).2 with
        | false =>
          refine ⟨?_, ?_, ?_⟩
          · intro _
            simp [updateChangelogFS, h0, h1, h2, horig]
          · intro h
            exact absurd h (by simp)
          · intro _ hs
            simp [updateChangelogFS, h0, h1, h2] at hs
        | true =>
          cases h3 : oracle (2 + 3 * (rustLines st.orig).length) with
          | true =>
            refine ⟨?_, ?_, ?_⟩
            · intro _
              simp [updateChangelogFS, h0, h1, h2, h3, horig]
            · intro h
              exact absurd h (by simp)
            · intro _ hs
              simp [updateChangelogFS, h0, h1, h2, h3] at hs
          | false =>
            have htmp := updateLoop_tmp_complete oracle text
              (rustLines st.orig) 2 false { st with tmp := some "" } ""
              rfl h2
            refine ⟨?_, ?_, ?_⟩
            · intro hs
              simp [updateChangelogFS, h0, h1, h2, h3] at hs
            · intro h
              exact absurd h (by simp)
            · intro _ _
              simp only [updateChangelogFS, h0, h1, h2, h3]
              simp [htmp, insertSection]

/-- Witness for C6: a loop write failure leaves the original untouched, and
a fully successful in-place run replaces it with the insertion output. -/
theorem update_changelog_atomic_witness :
    ((updateChangelogFS (fun n => decide (n = 3)) true "S\n"
        ⟨"# T\n## [1.0.0] - 2020-02-02\nbody\n", none, ""⟩).2 = false ∧
      (updateChangelogFS (fun n => decide (n = 3)) true "S\n"
        ⟨"# T\n## [1.0.0] - 2020-02-02\nbody\n", none, ""⟩).1.orig =
        "# T\n## [1.0.0] - 2020-02-02\nbody\n") ∧
    ((updateChangelogFS (fun _ => false) true "S\n"
        ⟨"# T\n## [1.0.0] - 2020-02-02\nbody\n", none, ""⟩).2 = true ∧
      (updateChangelogFS (fun _ => false) true "S\n"
        ⟨"# T\n## [1.0.0] - 2020-02-02\nbody\n", none, ""⟩).1.orig =
        insertSection "S\n"
          (rustLines "# T\n## [1.0.0] - 2020-02-02\nbody\n")) :=
  ⟨⟨by decide,
    (update_changelog_atomic (fun n => decide (n = 3)) true "S\n"
      ⟨"# T\n## [1.0.0] - 2020-02-02\nbody\n", none, ""⟩).1 (by decide)⟩,
   ⟨by decide,
    (update_changelog_atomic (fun _ => false) true "S\n"
      ⟨"# T\n## [1.0.0] - 2020-02-02\nbody\n", none, ""⟩).2.2 rfl
      (by decide)⟩⟩

/-- Claim C10: the inserter has no duplicate or tag-aware guard. The first
line the formatter emits for a tag of word, dash or dot characters matches
the heading pattern; and for any document with a first heading line and any
section whose own first line matches the pattern, inserting the section and
then inserting it again into the written-out result yields the section's
text twice, the second copy immediately before the first copy's heading. -/
theorem inserter_no_duplicate_guard :
    (∀ tag today : String, tag.toList ≠ [] →
       (∀ ch ∈ tag.toList, isTagCh ch = true) →
       dateCheck today.toList = true →
       patHeading (headingLine tag today) = true) ∧
    (∀ (s0 l text : String) (srest pre post : List String),
       (∀ x ∈ pre, patHeading x = false) → patHeading l = true →
       patHeading s0 = true →
       (∀ x ∈ s0 :: srest, lineOk x) →
       (∀ x ∈ pre ++ l :: post, lineOk x) →
       text = joinNL (s0 :: srest) →
       insertSection text
           (rustLines (insertSection text (pre ++ l :: post))) =
         joinNL pre ++ text ++ text ++ ((l ++ "\n") ++ joinNL post)) := by
  refine ⟨patHeading_headingLine, ?_⟩
  intro s0 l text srest pre post hpre hl hs0 hsok hlsok htext
  subst htext
  rw [insert_first_heading _ pre post l hpre hl]
  have h2 : joinNL pre ++ joinNL (s0 :: srest) ++
      ((l ++ "\n") ++ joinNL post) =
      joinNL (pre ++ (s0 :: srest) ++ (l :: post)) := by
    rw [joinNL_append, joinNL_append]
    simp [joinNL, String.append_assoc]
  rw [h2]
  have hall : ∀ x ∈ pre ++ (s0 :: srest) ++ (l :: post), lineOk x := by
    intro x hx
    rcases List.mem_append.1 hx with hx1 | hx2
    · rcases List.mem_append.1 hx1 with hxp | hxs
      · exact hlsok x (List.mem_append.2 (Or.inl hxp))
      · exact hsok x hxs
    · rcases List.mem_cons.1 hx2 with rfl | hxq
      · exact hlsok x (List.mem_append.2 (Or.inr (List.mem_cons_self _ _)))
      · exact hlsok x
          (List.mem_append.2 (Or.inr (List.mem_cons_of_mem _ hxq)))
  rw [rustLines_joinNL _ hall]
  have h5 : pre ++ (s0 :: srest) ++ (l :: post) =
      pre ++ s0 :: (srest ++ l :: post) := by simp
  rw [h5]
  rw [insert_first_heading _ pre (srest ++ l :: post) s0 hpre hs0]
  rw [joinNL_append]
  simp [joinNL, String.append_assoc]

/-- Witness for C10: a one-heading document; inserting the same formatted
section twice stacks two copies above the old heading. -/
theorem inserter_no_duplicate_guard_witness :
    patHeading (headingLine "1.1.0" "2024-02-02") = true ∧
    insertSection ("## [1.1.0] - 2024-02-02" ++ "\n")
        (rustLines (insertSection ("## [1.1.0] - 2024-02-02" ++ "\n")
          ([] ++ "## [1.0.0] - 2020-02-02" :: ["body"]))) =
      joinNL [] ++ ("## [1.1.0] - 2024-02-02" ++ "\n") ++
        ("## [1.1.0] - 2024-02-02" ++ "\n") ++
        (("## [1.0.0] - 2020-02-02" ++ "\n") ++ joinNL ["body"]) :=
  ⟨inserter_no_duplicate_guard.1 "1.1.0" "2024-02-02" (by decide)
     (by decide) (by decide),
   inserter_no_duplicate_guard.2 "## [1.1.0] - 2024-02-02"
     "## [1.0.0] - 2020-02-02" ("## [1.1.0] - 2024-02-02" ++ "\n") [] []
     ["body"] (by decide) (by decide) (by decide) (by decide) (by decide)
     (by decide)⟩

end Nevez
